import Mathlib

set_option maxRecDepth 10000

/-!
Verification of the core ledger engine of `node_server.py`:
the `Block` hashing scheme, the proof-of-work search, block
acceptance (`add_block`) and mining orchestration (`mine`).

The HTTP boundary layer (Flask routes) is outside the verified core.
All strings handled by the engine are ASCII, so Python's
`str.encode()` (UTF-8) coincides with the per-character code points.
-/

/-! ## SHA-256, executable over byte lists (bytes as `Nat < 256`) -/

def w32 (n : Nat) : Nat := n % 4294967296

def rotr (n x : Nat) : Nat := w32 (Nat.lor (x >>> n) (x <<< (32 - n)))

def notw (x : Nat) : Nat := 4294967295 - x

def sSig0 (x : Nat) : Nat := Nat.xor (Nat.xor (rotr 7 x) (rotr 18 x)) (x >>> 3)

def sSig1 (x : Nat) : Nat := Nat.xor (Nat.xor (rotr 17 x) (rotr 19 x)) (x >>> 10)

def bSig0 (x : Nat) : Nat := Nat.xor (Nat.xor (rotr 2 x) (rotr 13 x)) (rotr 22 x)

def bSig1 (x : Nat) : Nat := Nat.xor (Nat.xor (rotr 6 x) (rotr 11 x)) (rotr 25 x)

def shaK : List Nat :=
  [1116352408, 1899447441, 3049323471, 3921009573, 961987163,
   1508970993, 2453635748, 2870763221, 3624381080, 310598401,
   607225278, 1426881987, 1925078388, 2162078206, 2614888103,
   3248222580, 3835390401, 4022224774, 264347078, 604807628,
   770255983, 1249150122, 1555081692, 1996064986, 2554220882,
   2821834349, 2952996808, 3210313671, 3336571891, 3584528711,
   113926993, 338241895, 666307205, 773529912, 1294757372,
   1396182291, 1695183700, 1986661051, 2177026350, 2456956037,
   2730485921, 2820302411, 3259730800, 3345764771, 3516065817,
   3600352804, 4094571909, 275423344, 430227734, 506948616,
   659060556, 883997877, 958139571, 1322822218, 1537002063,
   1747873779, 1955562222, 2024104815, 2227730452, 2361852424,
   2428436474, 2756734187, 3204031479, 3329325298]

def shaH0 : List Nat :=
  [1779033703, 3144134277, 1013904242, 2773480762, 1359893119,
   2600822924, 528734635, 1541459225]

def be8 (v : Nat) : List Nat :=
  [(v >>> 56) &&& 255, (v >>> 48) &&& 255, (v >>> 40) &&& 255, (v >>> 32) &&& 255,
   (v >>> 24) &&& 255, (v >>> 16) &&& 255, (v >>> 8) &&& 255, v &&& 255]

def padded (m : List Nat) : List Nat :=
  let L := m.length
  let k := (120 - (L + 1) % 64) % 64
  m ++ 128 :: List.replicate k 0 ++ be8 (8 * L)

def chunksGo : Nat → List Nat → List (List Nat)
  | _, [] => []
  | 0, _ => []
  | n + 1, l => l.take 64 :: chunksGo n (l.drop 64)

def toWords : List Nat → List Nat
  | b0 :: b1 :: b2 :: b3 :: rest => (((b0 * 256 + b1) * 256 + b2) * 256 + b3) :: toWords rest
  | _ => []

def extendW : Nat → List Nat → List Nat
  | 0, ws => ws
  | n + 1, ws =>
    let l := ws.length
    let nw := w32 (ws.getD (l - 16) 0 + sSig0 (ws.getD (l - 15) 0) +
                   ws.getD (l - 7) 0 + sSig1 (ws.getD (l - 2) 0))
    extendW n (ws ++ [nw])

def compress : List (Nat × Nat) →
    Nat → Nat → Nat → Nat → Nat → Nat → Nat → Nat → List Nat
  | [], a, b, c, d, e, f, g, h => [a, b, c, d, e, f, g, h]
  | (k, w) :: rest, a, b, c, d, e, f, g, h =>
    let ch := Nat.xor (Nat.land e f) (Nat.land (notw e) g)
    let t1 := w32 (h + bSig1 e + ch + k + w)
    let mj := Nat.xor (Nat.xor (Nat.land a b) (Nat.land a c)) (Nat.land b c)
    let t2 := w32 (bSig0 a + mj)
    compress rest (w32 (t1 + t2)) a b c (w32 (d + t1)) e f g

def processChunk (hs : List Nat) (chunk : List Nat) : List Nat :=
  let ws := extendW 48 (toWords chunk)
  let out := compress (shaK.zip ws) (hs.getD 0 0) (hs.getD 1 0) (hs.getD 2 0) (hs.getD 3 0)
                      (hs.getD 4 0) (hs.getD 5 0) (hs.getD 6 0) (hs.getD 7 0)
  List.zipWith (fun x y => w32 (x + y)) hs out

def sha256words (m : List Nat) : List Nat :=
  (chunksGo (padded m).length (padded m)).foldl processChunk shaH0

def hexDigit (n : Nat) : Char := if n < 10 then Char.ofNat (48 + n) else Char.ofNat (87 + n)

def wordHex (w : Nat) : List Char :=
  [hexDigit ((w >>> 28) &&& 15), hexDigit ((w >>> 24) &&& 15),
   hexDigit ((w >>> 20) &&& 15), hexDigit ((w >>> 16) &&& 15),
   hexDigit ((w >>> 12) &&& 15), hexDigit ((w >>> 8) &&& 15),
   hexDigit ((w >>> 4) &&& 15), hexDigit (w &&& 15)]

/-- SHA-256 of an ASCII string, as a lowercase hex string; models
Python's `sha256(s.encode()).hexdigest()`. -/
def sha256hex (s : String) : String :=
  String.mk (((sha256words (s.data.map Char.toNat)).map wordHex).flatten)

example : sha256hex "abc" = "ba7816bf8f01cfea414140de5dae2223b00361a396177a9cb410ff61f20015ad" := by
  decide

example : sha256hex "" = "e3b0c44298fc1c149afbf4c8996fb92427ae41e4649b934ca495991b7852b855" := by
  decide

/-! ## The ledger engine, embedded from `node_server.py`

Transactions are opaque serializable records; they are modelled by their
canonical serialized form (the `sort_keys=True` JSON text), since the engine
never inspects them.  Likewise `timestamp` holds the serialized form of the
float returned by `time.time()` (an external input of each operation).
The dynamically attached `hash` attribute is `none` until assigned. -/

structure Block where
  index : Int
  transactions : List String
  timestamp : String
  previous_hash : String
  nonce : Nat
  hash : Option String
deriving DecidableEq

/-- Models `Block.__init__`: `nonce` starts at 0 and there is no `hash` attribute yet. -/
def Block.make (index : Int) (transactions : List String) (timestamp : String)
    (previous_hash : String) : Block :=
  ⟨index, transactions, timestamp, previous_hash, 0, none⟩

/-- Models `json.dumps(self.__dict__, sort_keys=True)`: every attribute the object
currently has, keys in lexicographic order (`hash` < `index` < `nonce` <
`previous_hash` < `timestamp` < `transactions`), separators `", "`/`": "`.
The `hash` key is present exactly when the attribute has been assigned. -/
def blockString (b : Block) : String :=
  "\x7b" ++
  (match b.hash with
   | some h => "\"hash\": \"" ++ h ++ "\", "
   | none => "") ++
  "\"index\": " ++ toString b.index ++
  ", \"nonce\": " ++ toString b.nonce ++
  ", \"previous_hash\": \"" ++ b.previous_hash ++ "\"" ++
  ", \"timestamp\": " ++ b.timestamp ++
  ", \"transactions\": [" ++ String.intercalate ", " b.transactions ++ "]\x7d"

/-- Models `Block.compute_hash`. -/
def Block.compute_hash (b : Block) : String := sha256hex (blockString b)

/-- The class attribute `Blockchain.difficulty = 2`. -/
def difficulty : Nat := 2

/-- Python `block_hash.startswith('0' * difficulty)`. -/
def startsWithZeros (s : String) (d : Nat) : Bool :=
  List.isPrefixOf (List.replicate d '0') s.data

structure Blockchain where
  unconfirmed_transactions : List String
  chain : List Block
deriving DecidableEq

/-- The genesis block built by `create_genesis_block`: `Block(0, [], time.time(), "0")`,
whose digest is computed *before* the `hash` attribute is attached. -/
def create_genesis_block (ts : String) : Block :=
  let g := Block.make 0 [] ts "0"
  { g with hash := some g.compute_hash }

/-- Models `Blockchain.__init__` followed by `create_genesis_block`; `ts` is the value `time.time()` returned. -/
def Blockchain.create (ts : String) : Blockchain := ⟨[], [create_genesis_block ts]⟩

/-- The `last_block` property, `self.chain[-1]` (`none` models the `IndexError`
on an empty chain, which never occurs). -/
def Blockchain.last_block (bc : Blockchain) : Option Block := bc.chain.getLast?

/-- Models `Blockchain.is_valid_proof`. -/
def Blockchain.is_valid_proof (block : Block) (block_hash : String) : Bool :=
  startsWithZeros block_hash difficulty && block_hash == block.compute_hash

/-- Models `Blockchain.add_block`.  Python mutates the caller's block object
(`block.hash = proof`), so the possibly-updated block is returned alongside
the new chain state and the boolean result. -/
def Blockchain.add_block (bc : Blockchain) (block : Block) (proof : String) :
    Blockchain × Block × Bool :=
  match bc.chain.getLast? with
  | none => (bc, block, false)
  | some tail =>
    let previous_hash := tail.hash.getD ""
    if previous_hash != block.previous_hash then (bc, block, false)
    else if !(Blockchain.is_valid_proof block proof) then (bc, block, false)
    else
      let accepted := { block with hash := some proof }
      ({ bc with chain := bc.chain ++ [accepted] }, accepted, true)

/-- The body of the `while` loop of `proof_of_work`: compute the digest, and
while it does not start with `'0' * difficulty`, increment `nonce` and retry. -/
def powLoop : Nat → Block → Option (Block × String)
  | 0, _ => none
  | fuel + 1, b =>
    let h := b.compute_hash
    if startsWithZeros h difficulty then some (b, h)
    else powLoop fuel { b with nonce := b.nonce + 1 }

/-- Models `Blockchain.proof_of_work`: reset `block.nonce = 0`, then brute-force.
`fuel` bounds the unbounded search; `none` means the Python loop has not
terminated within `fuel` digest computations. -/
def Blockchain.proof_of_work (fuel : Nat) (block : Block) : Option (Block × String) :=
  powLoop fuel { block with nonce := 0 }

/-- Models `Blockchain.add_new_transaction`. -/
def Blockchain.add_new_transaction (bc : Blockchain) (t : String) : Blockchain :=
  { bc with unconfirmed_transactions := bc.unconfirmed_transactions ++ [t] }

/-- Python `mine` returns `False` (no pending transactions) or the new block's index. -/
inductive MineResult where
  | noTx : MineResult
  | mined : Int → MineResult
deriving DecidableEq

/-- Models `Blockchain.mine`; `ts` is the `time.time()` stamp of the candidate block and
`fuel` bounds the inner proof-of-work search.  The boolean result of `add_block`
is ignored, exactly as in the source. -/
def Blockchain.mine (fuel : Nat) (bc : Blockchain) (ts : String) :
    Option (Blockchain × MineResult) :=
  if bc.unconfirmed_transactions.isEmpty then some (bc, .noTx)
  else
    match bc.chain.getLast? with
    | none => none
    | some lastb =>
      let new_block := Block.make (lastb.index + 1) bc.unconfirmed_transactions ts
                         (lastb.hash.getD "")
      match Blockchain.proof_of_work fuel new_block with
      | none => none
      | some (nb, proof) =>
        let r := bc.add_block nb proof
        some ({ r.1 with unconfirmed_transactions := [] }, .mined r.2.1.index)

/-- States reachable through the public operations: the constructor,
`add_new_transaction`, `mine`, and `add_block` with an externally
constructed block. -/
inductive Reachable : Blockchain → Prop where
  | create (ts : String) : Reachable (Blockchain.create ts)
  | submit {bc : Blockchain} (t : String) :
      Reachable bc → Reachable (bc.add_new_transaction t)
  | mine {bc bc' : Blockchain} {r : MineResult} (fuel : Nat) (ts : String) :
      Reachable bc → bc.mine fuel ts = some (bc', r) → Reachable bc'
  | add {bc : Blockchain} (block : Block) (proof : String) :
      Reachable bc → Reachable (bc.add_block block proof).1

/-- States reachable without handing externally constructed blocks to
`add_block` directly: only the constructor, `add_new_transaction` and `mine`. -/
inductive ReachableViaMine : Blockchain → Prop where
  | create (ts : String) : ReachableViaMine (Blockchain.create ts)
  | submit {bc : Blockchain} (t : String) :
      ReachableViaMine bc → ReachableViaMine (bc.add_new_transaction t)
  | mine {bc bc' : Blockchain} {r : MineResult} (fuel : Nat) (ts : String) :
      ReachableViaMine bc → bc.mine fuel ts = some (bc', r) → ReachableViaMine bc'

example : blockString (Block.make 0 [] "1.0" "0") =
    "\x7b\"index\": 0, \"nonce\": 0, \"previous_hash\": \"0\", \"timestamp\": 1.0, \"transactions\": []\x7d" := by
  decide

example : (create_genesis_block "1.0").hash =
    some "168d6c84a94bbfe9682dca14a12a7852b99b548d73cbc743a43a318b82dc9b93" := by
  decide

/-! ## Basic characterizations of the operations -/

theorem is_valid_proof_true_iff {b : Block} {p : String} :
    Blockchain.is_valid_proof b p = true ↔
      startsWithZeros p difficulty = true ∧ p = b.compute_hash := by
  unfold Blockchain.is_valid_proof
  rw [Bool.and_eq_true, beq_iff_eq]

theorem add_block_none {bc : Blockchain} {b : Block} {p : String}
    (hgl : bc.chain.getLast? = none) : bc.add_block b p = (bc, b, false) := by
  unfold Blockchain.add_block
  rw [hgl]

theorem add_block_reject_link {bc : Blockchain} {b : Block} {p : String} {t : Block}
    (hgl : bc.chain.getLast? = some t) (hlink : t.hash.getD "" ≠ b.previous_hash) :
    bc.add_block b p = (bc, b, false) := by
  unfold Blockchain.add_block
  rw [hgl]
  simp [hlink]

theorem add_block_reject_proof {bc : Blockchain} {b : Block} {p : String} {t : Block}
    (hgl : bc.chain.getLast? = some t) (hlink : t.hash.getD "" = b.previous_hash)
    (hvp : Blockchain.is_valid_proof b p = false) :
    bc.add_block b p = (bc, b, false) := by
  unfold Blockchain.add_block
  rw [hgl]
  simp [hlink, hvp]

theorem add_block_accept {bc : Blockchain} {b : Block} {p : String} {t : Block}
    (hgl : bc.chain.getLast? = some t) (hlink : t.hash.getD "" = b.previous_hash)
    (hvp : Blockchain.is_valid_proof b p = true) :
    bc.add_block b p =
      ({ bc with chain := bc.chain ++ [{ b with hash := some p }] },
       { b with hash := some p }, true) := by
  unfold Blockchain.add_block
  rw [hgl]
  simp [hlink, hvp]

theorem powLoop_spec : ∀ (fuel : Nat) (b nb : Block) (h : String),
    powLoop fuel b = some (nb, h) →
    ∃ k, nb = { b with nonce := b.nonce + k } ∧ h = nb.compute_hash ∧
      startsWithZeros h difficulty = true ∧
      ∀ j, j < k →
        startsWithZeros (Block.compute_hash { b with nonce := b.nonce + j }) difficulty = false := by
  intro fuel
  induction fuel with
  | zero => intro b nb h hp; simp [powLoop] at hp
  | succ fuel ih =>
    intro b nb h hp
    simp only [powLoop] at hp
    by_cases hs : startsWithZeros b.compute_hash difficulty = true
    · rw [if_pos hs] at hp
      obtain ⟨hb, hh⟩ := Prod.mk.injEq .. ▸ Option.some.injEq .. ▸ hp
      refine ⟨0, ?_, ?_, ?_, ?_⟩
      · exact hb.symm
      · rw [← hb, ← hh]
      · rw [← hh]; exact hs
      · intro j hj; omega
    · rw [if_neg hs] at hp
      obtain ⟨k, hb, hh, hsw, hmin⟩ := ih { b with nonce := b.nonce + 1 } nb h hp
      refine ⟨k + 1, ?_, hh, hsw, ?_⟩
      · rw [hb]
        have : b.nonce + 1 + k = b.nonce + (k + 1) := by omega
        show ({ b with nonce := b.nonce + 1 + k } : Block) = { b with nonce := b.nonce + (k + 1) }
        rw [this]
      · intro j hj
        match j with
        | 0 =>
          have : ({ b with nonce := b.nonce + 0 } : Block) = b := rfl
          rw [this]
          exact Bool.not_eq_true _ ▸ hs
        | j' + 1 =>
          have hlt : j' < k := by omega
          have := hmin j' hlt
          have harg : ({ b with nonce := b.nonce + 1 + j' } : Block) =
              { b with nonce := b.nonce + (j' + 1) } := by
            have : b.nonce + 1 + j' = b.nonce + (j' + 1) := by omega
            rw [this]
          rw [harg] at this
          exact this

theorem proof_of_work_spec (fuel : Nat) (b nb : Block) (h : String)
    (hp : Blockchain.proof_of_work fuel b = some (nb, h)) :
    nb = { b with nonce := nb.nonce } ∧ h = nb.compute_hash ∧
    startsWithZeros h difficulty = true ∧
    ∀ m, m < nb.nonce →
      startsWithZeros (Block.compute_hash { b with nonce := m }) difficulty = false := by
  obtain ⟨k, hb, hh, hsw, hmin⟩ := powLoop_spec fuel { b with nonce := 0 } nb h hp
  have h0 : ({ b with nonce := 0 } : Block).nonce = 0 := rfl
  rw [h0, Nat.zero_add] at hb
  have hnk : nb.nonce = k := by rw [hb]
  refine ⟨by rw [hnk]; exact hb, hh, hsw, ?_⟩
  intro m hm
  have := hmin m (by omega)
  rw [h0, Nat.zero_add] at this
  exact this

theorem mine_eq_some {bc bc' : Blockchain} {r : MineResult} (fuel : Nat) (ts : String)
    (hm : bc.mine fuel ts = some (bc', r)) :
    (bc.unconfirmed_transactions = [] ∧ bc' = bc ∧ r = MineResult.noTx) ∨
    (bc.unconfirmed_transactions ≠ [] ∧ ∃ t nb p, bc.chain.getLast? = some t ∧
       Blockchain.proof_of_work fuel
         (Block.make (t.index + 1) bc.unconfirmed_transactions ts (t.hash.getD "")) =
           some (nb, p) ∧
       bc' = { (bc.add_block nb p).1 with unconfirmed_transactions := [] } ∧
       r = MineResult.mined ((bc.add_block nb p).2.1.index)) := by
  unfold Blockchain.mine at hm
  by_cases hemp : bc.unconfirmed_transactions = []
  · left
    rw [if_pos (by simp [hemp])] at hm
    obtain ⟨h1, h2⟩ := Prod.mk.injEq .. ▸ Option.some.injEq .. ▸ hm
    exact ⟨hemp, h1.symm, h2.symm⟩
  · right
    rw [if_neg (by simp [hemp])] at hm
    refine ⟨hemp, ?_⟩
    cases hgl : bc.chain.getLast? with
    | none => rw [hgl] at hm; cases hm
    | some t =>
      rw [hgl] at hm
      dsimp only at hm
      cases hpow : Blockchain.proof_of_work fuel
          (Block.make (t.index + 1) bc.unconfirmed_transactions ts (t.hash.getD "")) with
      | none =>
        rw [hpow] at hm
        exact absurd hm (by simp)
      | some pr =>
        obtain ⟨nb, p⟩ := pr
        rw [hpow] at hm
        dsimp only at hm
        obtain ⟨h1, h2⟩ := Prod.mk.injEq .. ▸ Option.some.injEq .. ▸ hm
        exact ⟨t, nb, p, rfl, hpow, h1.symm, h2.symm⟩

/-! ## Chain invariants -/

/-- The stored hash was produced by `compute_hash` on the block's own fields as
they stood at the moment the digest was taken: `prior` is the value (possibly
absent) the `hash` attribute had at that moment.  Accepting a block overwrites
`hash`, so a later recomputation of `compute_hash` serializes the new attribute
and generally differs. -/
def SealedHash (b : Block) : Prop :=
  ∃ prior : Option String, b.hash = some (Block.compute_hash { b with hash := prior })

/-- Linkage between adjacent chain entries: the earlier block's stored hash is
exactly the later block's `previous_hash`. -/
def Linked (a b : Block) : Prop := a.hash = some b.previous_hash

/-- The invariant maintained on `chain` by every public operation. -/
def ChainInv (c : List Block) : Prop :=
  c ≠ [] ∧ (∀ b ∈ c, SealedHash b) ∧
  (∀ b ∈ c.drop 1, startsWithZeros (b.hash.getD "") difficulty = true) ∧
  List.Chain' Linked c

theorem chainInv_create (ts : String) : ChainInv (Blockchain.create ts).chain := by
  refine ⟨by simp [Blockchain.create], ?_, ?_, ?_⟩
  · intro b hb
    have : b = create_genesis_block ts := by
      simpa [Blockchain.create] using hb
    rw [this]
    exact ⟨none, rfl⟩
  · intro b hb
    simp [Blockchain.create] at hb
  · exact List.chain'_singleton _

theorem add_block_chainInv (bc : Blockchain) (b : Block) (p : String)
    (hinv : ChainInv bc.chain) : ChainInv (bc.add_block b p).1.chain := by
  obtain ⟨hne, hseal, hdiff, hchain⟩ := hinv
  have hgl := List.getLast?_eq_getLast_of_ne_nil hne
  set t := bc.chain.getLast hne with ht
  by_cases hlink : t.hash.getD "" = b.previous_hash
  · by_cases hvp : Blockchain.is_valid_proof b p = true
    · rw [add_block_accept hgl hlink hvp]
      obtain ⟨hsw, hdig⟩ := is_valid_proof_true_iff.mp hvp
      refine ⟨by simp, ?_, ?_, ?_⟩
      · intro x hx
        rcases List.mem_append.mp hx with hx | hx
        · exact hseal x hx
        · have : x = { b with hash := some p } := by simpa using hx
          rw [this]
          exact ⟨b.hash, by rw [hdig]⟩
      · intro x hx
        rw [List.drop_append_of_le_length
              (by simpa [Nat.succ_le, List.length_pos] using hne)] at hx
        rcases List.mem_append.mp hx with hx | hx
        · exact hdiff x hx
        · have : x = { b with hash := some p } := by simpa using hx
          rw [this]
          exact hsw
      · refine List.Chain'.append hchain (List.chain'_singleton _) ?_
        intro x hx y hy
        have hxt : t = x := by
          rw [hgl] at hx
          simpa using hx
        have hyb : ({ b with hash := some p } : Block) = y := by simpa using hy
        obtain ⟨prior, hpr⟩ := hseal t (List.getLast_mem hne)
        have : t.hash = some b.previous_hash := by
          rw [hpr] at hlink ⊢
          simp at hlink
          rw [hlink]
        rw [← hxt, ← hyb]
        exact this
    · rw [add_block_reject_proof hgl hlink (by simpa using hvp)]
      exact ⟨hne, hseal, hdiff, hchain⟩
  · rw [add_block_reject_link hgl hlink]
    exact ⟨hne, hseal, hdiff, hchain⟩

theorem reachable_chainInv {bc : Blockchain} (hr : Reachable bc) : ChainInv bc.chain := by
  induction hr with
  | create ts => exact chainInv_create ts
  | submit t _ ih => exact ih
  | mine fuel ts _ hm ih =>
    rcases mine_eq_some fuel ts hm with ⟨-, rfl, -⟩ | ⟨-, t, nb, p, -, -, rfl, -⟩
    · exact ih
    · exact add_block_chainInv _ nb p ih
  | add b p _ ih => exact add_block_chainInv _ b p ih

/-! ## Index bookkeeping -/

/-- The block at offset `i` of the list carries `index = k + i`. -/
def IndexedFrom : Int → List Block → Prop
  | _, [] => True
  | k, b :: t => b.index = k ∧ IndexedFrom (k + 1) t

theorem indexedFrom_append {k : Int} {c : List Block} {b : Block}
    (hc : IndexedFrom k c) (hb : b.index = k + c.length) : IndexedFrom k (c ++ [b]) := by
  induction c generalizing k with
  | nil => exact ⟨by simpa using hb, trivial⟩
  | cons hd tl ih =>
    refine ⟨hc.1, ih hc.2 ?_⟩
    rw [hb]
    simp only [List.length_cons]
    push_cast
    ring

theorem indexedFrom_getLast {k : Int} {c : List Block} {t : Block}
    (hc : IndexedFrom k c) (hgl : c.getLast? = some t) : t.index = k + c.length - 1 := by
  induction c generalizing k with
  | nil => cases hgl
  | cons hd tl ih =>
    cases tl with
    | nil =>
      have ht : t = hd := by simpa using hgl.symm
      rw [ht, hc.1]
      simp
    | cons x xs =>
      rw [List.getLast?_cons_cons] at hgl
      have := ih hc.2 hgl
      simp only [List.length_cons] at this ⊢
      push_cast at this ⊢
      omega

theorem indexedFrom_get {k : Int} {c : List Block} (hc : IndexedFrom k c) :
    ∀ i (h : i < c.length), (c.get ⟨i, h⟩).index = k + i := by
  induction c generalizing k with
  | nil => intro i h; simp at h
  | cons hd tl ih =>
    intro i h
    cases i with
    | zero => simpa using hc.1
    | succ j =>
      have := ih hc.2 j (by simpa using h)
      simp only [List.get_cons_succ]
      rw [this]
      push_cast
      ring

/-! ## The `add_block` call inside `mine` always succeeds -/

theorem mine_pow_accepts {bc : Blockchain} {t nb : Block} {p : String} {fuel : Nat} {ts : String}
    (hgl : bc.chain.getLast? = some t)
    (hpow : Blockchain.proof_of_work fuel
        (Block.make (t.index + 1) bc.unconfirmed_transactions ts (t.hash.getD "")) =
      some (nb, p)) :
    bc.add_block nb p =
      ({ bc with chain := bc.chain ++ [{ nb with hash := some p }] },
       { nb with hash := some p }, true) := by
  obtain ⟨hfields, hdig, hsw, -⟩ := proof_of_work_spec _ _ _ _ hpow
  have hprev : t.hash.getD "" = nb.previous_hash := by
    rw [hfields]
    rfl
  have hvp : Blockchain.is_valid_proof nb p = true := is_valid_proof_true_iff.mpr ⟨hsw, hdig⟩
  exact add_block_accept hgl hprev hvp

theorem reachableVM_reachable {bc : Blockchain} (h : ReachableViaMine bc) : Reachable bc := by
  induction h with
  | create ts => exact Reachable.create ts
  | submit t _ ih => exact Reachable.submit t ih
  | mine fuel ts _ hm ih => exact Reachable.mine fuel ts ih hm

theorem reachableVM_indexed {bc : Blockchain} (hr : ReachableViaMine bc) :
    IndexedFrom 0 bc.chain := by
  induction hr with
  | create ts => exact ⟨rfl, trivial⟩
  | submit t _ ih => exact ih
  | @mine bc0 bc' r fuel ts hvm hm ih =>
    rcases mine_eq_some fuel ts hm with ⟨-, rfl, -⟩ | ⟨-, t, nb, p, hgl, hpow, rfl, -⟩
    · exact ih
    · have hinv := reachable_chainInv (reachableVM_reachable hvm)
      obtain ⟨hfields, -, -, -⟩ := proof_of_work_spec _ _ _ _ hpow
      have hidx : nb.index = t.index + 1 := by
        rw [hfields]
        rfl
      have ht := indexedFrom_getLast ih hgl
      have hlen : bc0.chain.length ≠ 0 := by
        simpa [List.length_eq_zero] using hinv.1
      rw [mine_pow_accepts hgl hpow]
      show IndexedFrom 0 (bc0.chain ++ [{ nb with hash := some p }])
      refine indexedFrom_append ih ?_
      show nb.index = 0 + (bc0.chain.length : Int)
      rw [hidx, ht]
      omega

/-! ## Concrete states used by witnesses and counterexamples

The digests below are the SHA-256 values the embedded `compute_hash` itself
produces on these inputs (checked by `decide` wherever they are used). -/

def g0hash : String := "168d6c84a94bbfe9682dca14a12a7852b99b548d73cbc743a43a318b82dc9b93"

def genesis1 : Block := ⟨0, [], "1.0", "0", 0, some g0hash⟩

def minedBlock1 : Block :=
  ⟨1, ["\"x\""], "105.5", g0hash, 0,
   some "007be4ea025bb1aa61c4d2e2cdcf1f777d569e159be1c0f8e78416f3075025d8"⟩

/-- The ledger created at time 1.0 with one pending transaction. -/
def txState1 : Blockchain := (Blockchain.create "1.0").add_new_transaction "\"x\""

/-- The ledger after `txState1` mines at time 105.5. -/
def minedState1 : Blockchain := ⟨[], [genesis1, minedBlock1]⟩

def powBlockW : Block := Block.make 1 [] "30.5" g0hash

def powBlockW1 : Block := ⟨1, [], "30.5", g0hash, 1, none⟩

def powDigestW : String := "009cf4a4d041fab8b73d43b69e77ffeebd1b2c70ae789006efb278b4b7994938"

/-- An externally constructed block with the out-of-sequence index 2 and a
valid proof for it. -/
def BwrongIdx : Block := Block.make 2 [] "86.5" g0hash

def h8digest : String := "005a22fd673d7607d2e73fdf2876f3026a5fd2878ffdaefccdcfd13692107071"

def stateWrongIdx : Blockchain := ((Blockchain.create "1.0").add_block BwrongIdx h8digest).1

/-- An externally constructed block with the negative index -1 and a valid
proof for it. -/
def Bneg : Block := Block.make (-1) [] "810.5" g0hash

def h9digest : String := "00709141e02102fae3388e5f3a069293189014aff3b9348d7b7ebc7759fbf21c"

def stateNeg : Blockchain := ((Blockchain.create "1.0").add_block Bneg h9digest).1

def stateNegTx : Blockchain := stateNeg.add_new_transaction "\"x\""

theorem reach_minedState1 : Reachable minedState1 :=
  Reachable.mine 1 "105.5" (Reachable.submit "\"x\"" (Reachable.create "1.0"))
    (show txState1.mine 1 "105.5" = some (minedState1, MineResult.mined 1) by decide)

theorem reachVM_minedState1 : ReachableViaMine minedState1 :=
  ReachableViaMine.mine 1 "105.5" (ReachableViaMine.submit "\"x\"" (ReachableViaMine.create "1.0"))
    (show txState1.mine 1 "105.5" = some (minedState1, MineResult.mined 1) by decide)

theorem reach_stateWrongIdx : Reachable stateWrongIdx :=
  Reachable.add BwrongIdx h8digest (Reachable.create "1.0")

theorem reach_stateNegTx : Reachable stateNegTx :=
  Reachable.submit "\"x\"" (Reachable.add Bneg h9digest (Reachable.create "1.0"))

/-! ## Claims -/

/-- Claim C1, counterexample: in the reachable state consisting of a freshly
constructed ledger (timestamp 1.0), the accepted genesis block's stored hash
neither starts with `difficulty` leading '0' characters nor equals the digest
obtained by recomputing `compute_hash()` on the block's current fields (the
recomputation now serializes the assigned `hash` attribute as well). -/
theorem C1_counterexample :
    Reachable (Blockchain.create "1.0") ∧
    (Blockchain.create "1.0").chain.head?.map
        (fun b => startsWithZeros (b.hash.getD "") difficulty ||
                  (b.hash == some b.compute_hash)) =
      some false :=
  ⟨Reachable.create "1.0", by decide⟩

/-- Claim C1 (amended): in every state reachable via the public operations,
every accepted block's stored hash is exactly the digest `compute_hash()`
returned on the block's fields as they stood when the hash was taken (the
`hash` attribute still holding its pre-acceptance value), and every accepted
block other than the genesis block has a hash starting with `difficulty`
leading '0' hex characters.  The genesis block is exempt from the difficulty
predicate, and a recomputation after acceptance generally differs because the
assigned `hash` attribute itself enters the serialization. -/
theorem C1_hash_invariant {bc : Blockchain} (hr : Reachable bc) :
    ∀ i (h : i < bc.chain.length),
      SealedHash (bc.chain.get ⟨i, h⟩) ∧
      (0 < i → startsWithZeros ((bc.chain.get ⟨i, h⟩).hash.getD "") difficulty = true) := by
  obtain ⟨hne, hseal, hdiff, -⟩ := reachable_chainInv hr
  intro i h
  refine ⟨hseal _ (List.get_mem _ _ _), ?_⟩
  intro hi
  obtain ⟨j, rfl⟩ : ∃ j, i = j + 1 := ⟨i - 1, by omega⟩
  have hlt : j < (bc.chain.drop 1).length := by
    rw [List.length_drop]
    omega
  have heq : (bc.chain.drop 1).get ⟨j, hlt⟩ = bc.chain.get ⟨j + 1, h⟩ := by
    simp only [List.get_eq_getElem, List.getElem_drop]
    congr 1
    omega
  have hmem := List.get_mem (bc.chain.drop 1) j hlt
  rw [heq] at hmem
  exact hdiff _ hmem

/-- Witness for C1_hash_invariant: the mined block of `minedState1`. -/
theorem C1_hash_invariant_witness :
    SealedHash (minedState1.chain.get ⟨1, by decide⟩) ∧
    (0 < 1 →
      startsWithZeros ((minedState1.chain.get ⟨1, by decide⟩).hash.getD "") difficulty = true) :=
  C1_hash_invariant reach_minedState1 1 (by decide)

/-- Claim C2, evaluation at the failing input: while a block has no `hash`
attribute the serialized digest input is exactly the five fields with sorted
keys, but once `hash` has been assigned, `compute_hash()` serializes the
`hash` key as well and the digest changes — contradicting the claim that the
`hash` field is excluded regardless of whether a hash has been assigned. -/
theorem C2_hash_not_excluded_eval :
    blockString (Block.make 0 [] "1.0" "0") =
      "\x7b\"index\": 0, \"nonce\": 0, \"previous_hash\": \"0\", \"timestamp\": 1.0, \"transactions\": []\x7d" ∧
    blockString { Block.make 0 [] "1.0" "0" with hash := some "abc" } =
      "\x7b\"hash\": \"abc\", \"index\": 0, \"nonce\": 0, \"previous_hash\": \"0\", \"timestamp\": 1.0, \"transactions\": []\x7d" ∧
    Block.compute_hash { Block.make 0 [] "1.0" "0" with hash := some "abc" } ≠
      Block.compute_hash (Block.make 0 [] "1.0" "0") := by
  refine ⟨by decide, by decide, by decide⟩

/-- Claim C3: every completed run of `mine` on a nonempty pending pool made an
internal `add_block` call that returned success, cleared the pending pool, and
reported the new block's index; so the pool is cleared and success reported
only together with a successful `add_block` (and the failure branch of the
claim is vacuous: that internal call never returns failure). -/
theorem C3_mine_pool_cleared_only_with_success {bc bc' : Blockchain} {r : MineResult}
    (fuel : Nat) (ts : String)
    (hm : bc.mine fuel ts = some (bc', r))
    (hpool : bc.unconfirmed_transactions ≠ []) :
    ∃ nb p, (bc.add_block nb p).2.2 = true ∧
      bc' = { (bc.add_block nb p).1 with unconfirmed_transactions := [] } ∧
      r = MineResult.mined ((bc.add_block nb p).2.1.index) := by
  rcases mine_eq_some fuel ts hm with ⟨he, -, -⟩ | ⟨-, t, nb, p, hgl, hpow, hbc', hres⟩
  · exact absurd he hpool
  · refine ⟨nb, p, ?_, hbc', hres⟩
    rw [mine_pow_accepts hgl hpow]

/-- Witness for C3: mining `txState1` at time 105.5. -/
theorem C3_witness :
    ∃ nb p, (txState1.add_block nb p).2.2 = true ∧
      minedState1 = { (txState1.add_block nb p).1 with unconfirmed_transactions := [] } ∧
      MineResult.mined 1 = MineResult.mined ((txState1.add_block nb p).2.1.index) :=
  C3_mine_pool_cleared_only_with_success 1 "105.5" (by decide) (by decide)

/-- The hash of the chain tail, as read by `add_block`. -/
def lastHash (bc : Blockchain) : String :=
  match bc.chain.getLast? with
  | some t => t.hash.getD ""
  | none => ""

/-- Claim C4: if `add_block(block, proof)` rejects — the tail-hash linkage
fails or `is_valid_proof` fails (difficulty prefix or digest mismatch) — it
returns `False`, the chain is unchanged, and the candidate block's `hash`
attribute is not assigned: atomic accept-or-reject, no exception, no partial
mutation. -/
theorem C4_add_block_reject_atomic (bc : Blockchain) (b : Block) (p : String)
    (hne : bc.chain ≠ [])
    (hrej : lastHash bc ≠ b.previous_hash ∨ Blockchain.is_valid_proof b p = false) :
    bc.add_block b p = (bc, b, false) := by
  have hgl := List.getLast?_eq_getLast_of_ne_nil hne
  have hl : lastHash bc = (bc.chain.getLast hne).hash.getD "" := by
    unfold lastHash
    rw [hgl]
  rcases hrej with hrej | hrej
  · rw [hl] at hrej
    exact add_block_reject_link hgl hrej
  · by_cases hlink : (bc.chain.getLast hne).hash.getD "" = b.previous_hash
    · exact add_block_reject_proof hgl hlink hrej
    · exact add_block_reject_link hgl hlink

/-- Witness for C4: a linkage-breaking block with an empty proof is rejected
and nothing changes. -/
theorem C4_witness :
    Blockchain.add_block (Blockchain.create "1.0") (Block.make 0 [] "1.0" "zzz") "" =
      (Blockchain.create "1.0", Block.make 0 [] "1.0" "zzz", false) :=
  C4_add_block_reject_atomic _ _ _ (by decide) (Or.inr (by decide))

/-- Claim C5: whenever the proof-of-work search (which restarts from nonce 0)
terminates, the returned digest has its first `difficulty` hex characters
equal to '0', it is the digest of the returned block, only the nonce was
changed, and the final nonce is the smallest non-negative integer whose digest
satisfies the difficulty predicate, the other fields being fixed.
(The unbounded Python loop is modelled with the `fuel` bound.) -/
theorem C5_proof_of_work_correct (fuel : Nat) (b nb : Block) (h : String)
    (hp : Blockchain.proof_of_work fuel b = some (nb, h)) :
    startsWithZeros h difficulty = true ∧ h = nb.compute_hash ∧
    nb = { b with nonce := nb.nonce } ∧
    ∀ m, m < nb.nonce →
      startsWithZeros (Block.compute_hash { b with nonce := m }) difficulty = false := by
  obtain ⟨h1, h2, h3, h4⟩ := proof_of_work_spec fuel b nb h hp
  exact ⟨h3, h2, h1, h4⟩

/-- Witness for C5: a search that fails at nonce 0 and succeeds at nonce 1. -/
theorem C5_witness :
    startsWithZeros powDigestW difficulty = true ∧ powDigestW = powBlockW1.compute_hash ∧
    powBlockW1 = { powBlockW with nonce := powBlockW1.nonce } ∧
    ∀ m, m < powBlockW1.nonce →
      startsWithZeros (Block.compute_hash { powBlockW with nonce := m }) difficulty = false :=
  C5_proof_of_work_correct 2 powBlockW powBlockW1 powDigestW (by decide)

/-- Claim C6, evaluation: a freshly constructed ledger has exactly one block
with index 0, sentinel previous hash "0" and no transactions, and its stored
hash is the digest of the hash-less fields; but recomputing `compute_hash()`
on the block's current fields yields a different digest (the assigned `hash`
attribute now enters the serialization), contradicting the claim's last
conjunct. -/
theorem C6_genesis_eval :
    (Blockchain.create "1.0").chain.length = 1 ∧
    (Blockchain.create "1.0").chain.head?.map Block.index = some 0 ∧
    (Blockchain.create "1.0").chain.head?.map Block.previous_hash = some "0" ∧
    (Blockchain.create "1.0").chain.head?.map Block.transactions = some [] ∧
    (Blockchain.create "1.0").chain.head?.map
        (fun b => b.hash == some (Block.compute_hash { b with hash := none })) = some true ∧
    (Blockchain.create "1.0").chain.head?.map
        (fun b => b.hash == some b.compute_hash) = some false := by
  refine ⟨by decide, by decide, by decide, by decide, by decide, by decide⟩

/-- Claim C7: in every reachable state, every non-genesis block's
`previous_hash` equals the stored hash of its predecessor in the chain. -/
theorem C7_chain_linkage {bc : Blockchain} (hr : Reachable bc) :
    ∀ i (h : i + 1 < bc.chain.length),
      (bc.chain.get ⟨i, Nat.lt_of_succ_lt h⟩).hash =
        some ((bc.chain.get ⟨i + 1, h⟩).previous_hash) := by
  have hchain := (reachable_chainInv hr).2.2.2
  rw [List.chain'_iff_get] at hchain
  intro i h
  exact hchain i (by omega)

/-- Witness for C7: the two-block state reached by an external `add_block`. -/
theorem C7_witness :
    (stateWrongIdx.chain.get ⟨0, by decide⟩).hash =
      some ((stateWrongIdx.chain.get ⟨1, by decide⟩).previous_hash) :=
  C7_chain_linkage reach_stateWrongIdx 0 (by decide)

/-- Claim C8, counterexample: `add_block` performs no index validation, so an
externally constructed block with index 2 and a valid proof is accepted right
after genesis: the reachable state `stateWrongIdx` has a block at position 1
whose index is not 1. -/
theorem C8_counterexample :
    Reachable stateWrongIdx ∧ stateWrongIdx.chain.length = 2 ∧
    (stateWrongIdx.chain.get ⟨1, by decide⟩).index ≠ 1 :=
  ⟨reach_stateWrongIdx, by decide, by decide⟩

/-- Claim C8 (amended): in every state reachable via the constructor,
`submit_transaction` and `mine` alone (no externally constructed blocks handed
to `add_block`, which performs no index validation), block indices are
non-negative and equal their chain positions: genesis has index 0 and each
mined block's index is one greater than its predecessor's. -/
theorem C8_index_equals_position {bc : Blockchain} (hr : ReachableViaMine bc) :
    ∀ i (h : i < bc.chain.length), (bc.chain.get ⟨i, h⟩).index = (i : Int) := by
  intro i h
  have := indexedFrom_get (reachableVM_indexed hr) i h
  rw [this]
  omega

/-- Witness for C8_index_equals_position: the mined block of `minedState1`. -/
theorem C8_index_witness :
    (minedState1.chain.get ⟨1, by decide⟩).index = ((1 : Nat) : Int) :=
  C8_index_equals_position reachVM_minedState1 1 (by decide)

/-- Claim C9, counterexample: two blocks identical in the five listed fields
(index, transactions, timestamp, previous_hash, nonce) — one without an
assigned `hash` attribute and one with one — yield different digests, because
the assigned attribute enters the serialization. -/
theorem C9_counterexample :
    (Block.make 1 [] "1.0" "0").index =
      ({ Block.make 1 [] "1.0" "0" with hash := some "deadbeef" } : Block).index ∧
    (Block.make 1 [] "1.0" "0").transactions =
      ({ Block.make 1 [] "1.0" "0" with hash := some "deadbeef" } : Block).transactions ∧
    (Block.make 1 [] "1.0" "0").timestamp =
      ({ Block.make 1 [] "1.0" "0" with hash := some "deadbeef" } : Block).timestamp ∧
    (Block.make 1 [] "1.0" "0").previous_hash =
      ({ Block.make 1 [] "1.0" "0" with hash := some "deadbeef" } : Block).previous_hash ∧
    (Block.make 1 [] "1.0" "0").nonce =
      ({ Block.make 1 [] "1.0" "0" with hash := some "deadbeef" } : Block).nonce ∧
    Block.compute_hash (Block.make 1 [] "1.0" "0") ≠
      Block.compute_hash { Block.make 1 [] "1.0" "0" with hash := some "deadbeef" } :=
  ⟨rfl, rfl, rfl, rfl, rfl, by decide⟩

/-- Claim C9 (amended): `compute_hash()` is a pure function of the full field
state — blocks identical on index, transactions, timestamp, previous_hash,
nonce and the (possibly absent) `hash` attribute yield the same digest — and
the proof-of-work search is deterministic: run on field-identical inputs it
returns identical results (same final nonce, same digest). -/
theorem C9_deterministic (b1 b2 : Block) (fuel : Nat)
    (hi : b1.index = b2.index) (ht : b1.transactions = b2.transactions)
    (hts : b1.timestamp = b2.timestamp) (hp : b1.previous_hash = b2.previous_hash)
    (hn : b1.nonce = b2.nonce) (hh : b1.hash = b2.hash) :
    b1.compute_hash = b2.compute_hash ∧
    Blockchain.proof_of_work fuel b1 = Blockchain.proof_of_work fuel b2 := by
  have hb : b1 = b2 := by
    cases b1
    cases b2
    simp_all
  rw [hb]
  exact ⟨rfl, rfl⟩

/-- Witness for C9_deterministic. -/
theorem C9_deterministic_witness :
    Block.compute_hash genesis1 = Block.compute_hash genesis1 ∧
    Blockchain.proof_of_work 1 genesis1 = Blockchain.proof_of_work 1 genesis1 :=
  C9_deterministic genesis1 genesis1 1 rfl rfl rfl rfl rfl rfl

/-- Claim C10, counterexample: after `add_block` accepts an externally
constructed block with index -1 (it performs no index validation), a
successful `mine` returns -1 + 1 = 0 — which coincides with Python's falsy
`False` sentinel (`not 0` is true, `False == 0`), so a successful result is
not always at least 1 and can be falsy-ambiguous. -/
theorem C10_counterexample :
    Reachable stateNegTx ∧
    Option.map (fun q => q.2) (stateNegTx.mine 1 "2.5") = some (MineResult.mined 0) :=
  ⟨reach_stateNegTx, by decide⟩

/-- Claim C10 (amended): in every state reachable without handing externally
constructed blocks to `add_block`, a successful `mine` returns the tail index
plus one, which is at least 1 — never 0 and hence never falsy-ambiguous with
the `False` sentinel. -/
theorem C10_mine_result_ge_one {bc bc' : Blockchain} {n : Int}
    (hr : ReachableViaMine bc) (fuel : Nat) (ts : String)
    (hm : bc.mine fuel ts = some (bc', MineResult.mined n)) : 1 ≤ n := by
  rcases mine_eq_some fuel ts hm with ⟨-, -, hcon⟩ | ⟨-, t, nb, p, hgl, hpow, -, hres⟩
  · cases hcon
  · rw [mine_pow_accepts hgl hpow] at hres
    have hn : n = nb.index := by
      injection hres
    obtain ⟨hfields, -, -, -⟩ := proof_of_work_spec _ _ _ _ hpow
    have hidx : nb.index = t.index + 1 := by
      rw [hfields]
      rfl
    have ht := indexedFrom_getLast (reachableVM_indexed hr) hgl
    have hlen : bc.chain.length ≠ 0 := by
      have hinv := reachable_chainInv (reachableVM_reachable hr)
      simpa [List.length_eq_zero] using hinv.1
    rw [hn, hidx, ht]
    omega

/-- Witness for C10_mine_result_ge_one: mining `txState1` returns index 1. -/
theorem C10_witness :
    txState1.mine 1 "105.5" = some (minedState1, MineResult.mined 1) ∧ (1 : Int) ≤ 1 :=
  ⟨by decide,
   C10_mine_result_ge_one (ReachableViaMine.submit "\"x\"" (ReachableViaMine.create "1.0"))
     1 "105.5"
     (show txState1.mine 1 "105.5" = some (minedState1, MineResult.mined 1) by decide)⟩
